import Mathlib

/- Verification of generator/intermediate_data.hpp (namespace cache).

   Shallow embedding conventions:
   * machine integers (uint64_t, uint32_t, int32_t, int64_t) are Nat/Int with
     explicit bounds and wrapping where the code can overflow;
   * files are lists of bytes (Nat; bytes produced by the writer are < 256);
   * double is modelled as an exact rational (the spec states the coordinate
     encoding as exact arithmetic on lat * 1e7);
   * fatal CHECK / LOG(LCRITICAL) paths are modelled as Option-none results. -/

namespace cache

/-- Little-endian bytes of the low `w` bytes of `n`, as the raw memory image
written by FileWriter::Write for a `w`-byte unsigned field. -/
def toBytesLE : Nat → Nat → List Nat
  | 0, _ => []
  | w + 1, n => n % 256 :: toBytesLE w (n / 256)

/-- Value of a little-endian byte list (raw memory read of an unsigned field). -/
def fromBytesLE : List Nat → Nat
  | [] => 0
  | b :: bs => b + 256 * fromBytesLE bs

/-! ### detail::IndexFile, instantiated at TValue = uint64_t
(the instantiation OSMElementCache uses: Value is the payload-file offset). -/
/-- One index element: `pair<uint64_t, uint64_t>` (key, value), sizeof = 16. -/
abbrev TElement := Nat × Nat

/-- Raw bytes of one element as written by WriteAll. -/
def encodeEntry (e : TElement) : List Nat := toBytesLE 8 e.1 ++ toBytesLE 8 e.2

/-- Raw bytes of a run of elements (WriteAll writes the buffer contiguously). -/
def encodeEntries (l : List TElement) : List Nat := l.flatMap encodeEntry

/-- Write-mode state of detail::IndexFile: the in-memory buffer `m_elements`
and the bytes already flushed to the offsets file. -/
structure IndexFileW where
  buffer : List TElement
  fileBytes : List Nat
deriving DecidableEq

def IndexFileW.init : IndexFileW := ⟨[], []⟩

def kFlushCount : Nat := 1024

/-- WriteAll: returns at once when the buffer is empty, otherwise appends the
buffer image to the file and clears the buffer. -/
def IndexFileW.writeAll (s : IndexFileW) : IndexFileW :=
  if s.buffer = [] then s else ⟨[], s.fileBytes ++ encodeEntries s.buffer⟩

/-- Add: flushes first when more than kFlushCount elements are buffered, then
appends the new pair to the buffer. -/
def IndexFileW.add (s : IndexFileW) (k v : Nat) : IndexFileW :=
  let t := if kFlushCount < s.buffer.length then s.writeAll else s
  ⟨t.buffer ++ [(k, v)], t.fileBytes⟩

/-- Bytes the file would hold after flushing everything still buffered. -/
def IndexFileW.content (s : IndexFileW) : List Nat :=
  s.fileBytes ++ encodeEntries s.buffer

/-- The whole Add sequence, in call order. -/
def addAll (s : IndexFileW) (ops : List TElement) : IndexFileW :=
  ops.foldl (fun t kv => t.add kv.1 kv.2) s

/-- ElementComparator on two elements: equal keys compare by value, else by
key (strict lexicographic order). -/
def elementLt (a b : TElement) : Bool :=
  if a.1 = b.1 then decide (a.2 < b.2) else decide (a.1 < b.1)

/-- Non-strict order induced by the comparator, used for sorting. -/
def elementLe (a b : TElement) : Bool := ! elementLt b a

/-- Propositional form of elementLe. -/
def entLE (a b : TElement) : Prop := a.1 < b.1 ∨ (a.1 = b.1 ∧ a.2 ≤ b.2)

/-- ReadAll reinterprets the file as a packed array of 16-byte elements. -/
def decodeEntries (bs : List Nat) : List TElement :=
  if h : bs = [] then []
  else (fromBytesLE (bs.take 8), fromBytesLE ((bs.drop 8).take 8)) :: decodeEntries (bs.drop 16)
termination_by bs.length
decreasing_by
  simp only [List.length_drop]
  have hp : 0 < bs.length := List.length_pos.mpr h
  omega

/-- ReadAll: the empty file returns early with no elements; a length that is
not a multiple of sizeof(TElement) = 16 hits CHECK_EQUAL("Damaged file."),
modelled as none; otherwise the whole file is decoded and sorted in place
with ElementComparator. -/
def readAll (bs : List Nat) : Option (List TElement) :=
  if bs.length = 0 then some []
  else if bs.length % 16 ≠ 0 then none
  else some ((decodeEntries bs).mergeSort elementLe)

/-- GetValueByKey: lower_bound with ElementComparator (first element whose key
is not below the probe), then an exact key check. -/
def getValueByKey (es : List TElement) (key : Nat) : Option Nat :=
  match es.find? (fun e => ! decide (e.1 < key)) with
  | some e => if e.1 = key then some e.2 else none
  | none => none

/-- equal_range with ElementComparator on the sorted element list. -/
def equalRangeByKey (es : List TElement) (key : Nat) : List TElement :=
  (es.dropWhile (fun e => decide (e.1 < key))).takeWhile (fun e => ! decide (key < e.1))

/-- Values visited by the ForEachByKey loop: each value is passed to toDo in
range order, and the loop returns right after toDo yields true. -/
def visitValues (toDo : Nat → Bool) : List TElement → List Nat
  | [] => []
  | e :: es => e.2 :: (if toDo e.2 then [] else visitValues toDo es)

def forEachByKey (es : List TElement) (key : Nat) (toDo : Nat → Bool) : List Nat :=
  visitValues toDo (equalRangeByKey es key)

/-- Add the ops in order, WriteAll, reopen the file, ReadAll. -/
def indexPipeline (ops : List TElement) : Option (List TElement) :=
  readAll ((addAll IndexFileW.init ops).writeAll).fileBytes

/-- Values of the added entries whose key is k, in insertion order. -/
def matchingValues (ops : List TElement) (k : Nat) : List Nat :=
  (ops.filter (fun e => decide (e.1 = k))).map (fun e => e.2)

def natLe (a b : Nat) : Bool := decide (a ≤ b)

/-- Visitor trace on a value list: v is visited, then iteration stops when
toDo v is true. -/
def visitUntil (toDo : Nat → Bool) : List Nat → List Nat
  | [] => []
  | v :: vs => v :: (if toDo v then [] else visitUntil toDo vs)

/-! ### OSMElementCache: a payload file plus an IndexFile of uint64 offsets. -/
/-- Bytes of one payload record: the encoded size cast to uint32 (wrapping if
it ever exceeded 2^32, as the release-mode cast does), then that many payload
bytes. -/
def encRecord (p : List Nat) : List Nat :=
  toBytesLE 4 (p.length % 2 ^ 32) ++ p.take (p.length % 2 ^ 32)

/-- Write-mode cache state: the payload file bytes and the offsets index. -/
structure CacheW where
  storageBytes : List Nat
  offsets : IndexFileW
deriving DecidableEq

def CacheW.init : CacheW := ⟨[], IndexFileW.init⟩

/-- Write(id, value): record (id, current payload file position) in the
offset index, then append the size-prefixed encoded payload. -/
def CacheW.write (s : CacheW) (id : Nat) (payload : List Nat) : CacheW :=
  ⟨s.storageBytes ++ encRecord payload, s.offsets.add id s.storageBytes.length⟩

def cacheWritten (ws : List (Nat × List Nat)) : CacheW :=
  ws.foldl (fun s w => s.write w.1 w.2) CacheW.init

/-- Payload file bytes after the whole write sequence. -/
def cacheFileBytes (ws : List (Nat × List Nat)) : List Nat :=
  (cacheWritten ws).storageBytes

/-- Offsets file bytes after the write sequence and SaveOffsets. -/
def cacheOffsetsBytes (ws : List (Nat × List Nat)) : List Nat :=
  ((cacheWritten ws).offsets.writeAll).fileBytes

/-- Read(id) without preload: offset lookup, then two storage reads: the
4-byte size at pos, then that many bytes at pos + 4 into m_data; the decoder
then sees m_data truncated to valueSize. none models the warning+false path
when the id is absent from the offset index. -/
def readNoPreload (es : List TElement) (storage : List Nat) (id : Nat) : Option (List Nat) :=
  match getValueByKey es id with
  | none => none
  | some pos =>
    let valueSize := fromBytesLE ((storage.drop pos).take 4)
    let mData := (storage.drop (pos + 4)).take valueSize
    some (mData.take valueSize)

/-- Read(id) with preload: m_data already holds the whole payload file, the
uint32 size is read in memory at pos and the decoder window starts at
pos + 4. -/
def readPreload (es : List TElement) (storage : List Nat) (id : Nat) : Option (List Nat) :=
  match getValueByKey es id with
  | none => none
  | some pos =>
    let valueSize := fromBytesLE ((storage.drop pos).take 4)
    some ((storage.drop (pos + 4)).take valueSize)

/-- Offset-index ops produced by a write sequence starting at position b. -/
def cacheOps (b : Nat) : List (Nat × List Nat) → List TElement
  | [] => []
  | w :: ws => (w.1, b) :: cacheOps (b + (encRecord w.2).length) ws

/-- Full payload file image of a write sequence. -/
def encodeRecords (ws : List (Nat × List Nat)) : List Nat :=
  ws.flatMap (fun w => encRecord w.2)

/-- Position and payload of the first write whose id matches. -/
def firstWrite : Nat → List (Nat × List Nat) → Nat → Option (Nat × List Nat)
  | _, [], _ => none
  | b, w :: ws, id =>
    if w.1 = id then some (b, w.2) else firstWrite (b + (encRecord w.2).length) ws id

/-! ### PointStorage family. double is modelled as an exact rational, and
the int64 → int32 cast as a two's-complement wrap. -/
/-- Packed dense coordinate record (int32 lat; int32 lon), sizeof = 8. -/
structure LatLon where
  lat : Int
  lon : Int
deriving DecidableEq

def zeroLL : LatLon := ⟨0, 0⟩

/-- Sparse coordinate record (uint64 pos; int32 lat; int32 lon), sizeof = 16. -/
structure LatLonPos where
  pos : Nat
  lat : Int
  lon : Int
deriving DecidableEq

/-- kValueOrder = 1E7 (exactly representable in double). -/
def kValueOrder : ℚ := 10000000

/-- Truncation toward zero: the C++ double → int64_t conversion, on the
exact rational value (num/den rounded toward zero). -/
def ratTrunc (q : ℚ) : Int := Int.tdiv q.num (q.den : Int)

/-- Two's-complement wrap of a value into int32 (static_cast<int32_t>). -/
def toInt32 (n : Int) : Int := (n + 2147483648) % 4294967296 - 2147483648

/-- A value fits in int32, so the CHECK_EQUAL cast round-trip passes. -/
abbrev fitsInt32 (n : Int) : Prop := -2147483648 ≤ n ∧ n < 2147483648

/-- Write-mode RawFilePointStorage: the sparse point file (record of id i at
byte offset i * 8; holes read back as zeros) and the processed counter. -/
structure RawFileW where
  file : Nat → LatLon
  processed : Nat

def RawFileW.init : RawFileW := ⟨fun _ => zeroLL, 0⟩

/-- RawFilePointStorage::AddPoint: scale by 1e7, truncate to int64, cast to
int32, CHECK_EQUAL that the casts round-trip (fatal, modelled none), then
seek to id * 8 and write the 8-byte record. -/
def rawFileAddPoint (s : RawFileW) (id : Nat) (lat lng : ℚ) : Option RawFileW :=
  let lat64 := ratTrunc (lat * kValueOrder)
  let lng64 := ratTrunc (lng * kValueOrder)
  let ll : LatLon := ⟨toInt32 lat64, toInt32 lng64⟩
  if ll.lat = lat64 ∧ ll.lon = lng64 then
    some ⟨Function.update s.file id ll, s.processed + 1⟩
  else none

/-- RawFilePointStorage::GetPoint: read the 8 bytes at id * 8; a (0, 0)
record is treated as absent (LOG(LERROR) and false, no abort); otherwise
divide both fields by 1e7. -/
def rawFileGetPoint (file : Nat → LatLon) (id : Nat) : Option (ℚ × ℚ) :=
  let ll := file id
  if ll.lat ≠ 0 ∨ ll.lon ≠ 0 then
    some (((ll.lat : ℚ)) / kValueOrder, ((ll.lon : ℚ)) / kValueOrder)
  else none

/-- Write-mode RawMemPointStorage: the in-RAM dense vector of
(size_t)0xFFFFFFFF LatLon entries (zero-initialised) plus the counter.
Indexing at id ≥ 0xFFFFFFFF is out of bounds in the source, so theorems
about stored points carry that bound as a hypothesis. -/
structure RawMemW where
  data : Nat → LatLon
  processed : Nat

def RawMemW.init : RawMemW := ⟨fun _ => zeroLL, 0⟩

/-- Number of entries of the RawMem in-memory vector: (size_t)0xFFFFFFFF. -/
def rawMemSize : Nat := 0xFFFFFFFF

/-- RawMemPointStorage::AddPoint: same encoding and CHECK as RawFile, with a
direct store into the array slot. -/
def rawMemAddPoint (s : RawMemW) (id : Nat) (lat lng : ℚ) : Option RawMemW :=
  let lat64 := ratTrunc (lat * kValueOrder)
  let lng64 := ratTrunc (lng * kValueOrder)
  let ll : LatLon := ⟨toInt32 lat64, toInt32 lng64⟩
  if ll.lat = lat64 ∧ ll.lon = lng64 then
    some ⟨Function.update s.data id ll, s.processed + 1⟩
  else none

/-- RawMemPointStorage::GetPoint: array load with the same zero sentinel. -/
def rawMemGetPoint (data : Nat → LatLon) (id : Nat) : Option (ℚ × ℚ) :=
  let ll := data id
  if ll.lat ≠ 0 ∨ ll.lon ≠ 0 then
    some (((ll.lat : ℚ)) / kValueOrder, ((ll.lon : ℚ)) / kValueOrder)
  else none

def rawFileAddAll (s : RawFileW) : List (Nat × ℚ × ℚ) → Option RawFileW
  | [] => some s
  | w :: ws =>
    match rawFileAddPoint s w.1 w.2.1 w.2.2 with
    | some t => rawFileAddAll t ws
    | none => none

def rawMemAddAll (s : RawMemW) : List (Nat × ℚ × ℚ) → Option RawMemW
  | [] => some s
  | w :: ws =>
    match rawMemAddPoint s w.1 w.2.1 w.2.2 with
    | some t => rawMemAddAll t ws
    | none => none

/-- Little-endian two's-complement image of an int32 field. -/
def encodeInt32LE (n : Int) : List Nat := toBytesLE 4 (n % 4294967296).toNat

/-- Raw 8-byte image of one LatLon record. -/
def encodeLatLon (ll : LatLon) : List Nat := encodeInt32LE ll.lat ++ encodeInt32LE ll.lon

/-- RawMemPointStorage::DoneStorage (write mode): the whole array written as
one contiguous blob, index 0 first. -/
def rawMemSnapshotBytes (d : Nat → LatLon) : List Nat :=
  (List.range rawMemSize).flatMap (fun i => encodeLatLon (d i))

def rawMemDoneStorage (s : RawMemW) : List Nat := rawMemSnapshotBytes s.data

/-- Write-mode MapFilePointStorage: the .short file as its list of 16-byte
LatLonPos records in write order, plus the processed counter. -/
structure MapFileW where
  fileRecords : List LatLonPos
  processed : Nat
deriving DecidableEq

def MapFileW.init : MapFileW := ⟨[], 0⟩

/-- MapFilePointStorage::AddPoint: truncate and CHECK as in the dense
storages, then append one LatLonPos record to the .short file. -/
def mapFileAddPoint (s : MapFileW) (id : Nat) (lat lng : ℚ) : Option MapFileW :=
  let lat64 := ratTrunc (lat * kValueOrder)
  let lng64 := ratTrunc (lng * kValueOrder)
  let ll : LatLonPos := ⟨id, toInt32 lat64, toInt32 lng64⟩
  if ll.lat = lat64 ∧ ll.lon = lng64 then
    some ⟨s.fileRecords ++ [ll], s.processed + 1⟩
  else none

def mapFileAddAll (s : MapFileW) : List (Nat × ℚ × ℚ) → Option MapFileW
  | [] => some s
  | w :: ws =>
    match mapFileAddPoint s w.1 w.2.1 w.2.2 with
    | some t => mapFileAddAll t ws
    | none => none

/-- unordered_map::emplace, as an association list: inserts only when the
key is not present yet. -/
def emplace (m : List (Nat × Int × Int)) (k : Nat) (v : Int × Int) :
    List (Nat × Int × Int) :=
  if (m.find? (fun e => decide (e.1 = k))).isSome then m else m ++ [(k, v)]

/-- MapFilePointStorage read-mode InitStorage: stream the .short records in
file order, emplacing each into the map. -/
def mapFileInitRead (records : List LatLonPos) : List (Nat × Int × Int) :=
  records.foldl (fun m r => emplace m r.pos (r.lat, r.lon)) []

/-- MapFilePointStorage::GetPoint: map probe; false on a miss (no logging),
decode by dividing both fields by 1e7 on a hit. -/
def mapFileGetPoint (m : List (Nat × Int × Int)) (id : Nat) : Option (ℚ × ℚ) :=
  (m.find? (fun e => decide (e.1 = id))).map
    (fun e => (((e.2.1 : ℚ)) / kValueOrder, ((e.2.2 : ℚ)) / kValueOrder))

theorem length_toBytesLE (w : Nat) : ∀ n, (toBytesLE w n).length = w := by
  induction w with
  | zero => intro n; rfl
  | succ w ih => intro n; simp [toBytesLE, ih]

theorem fromBytesLE_toBytesLE (w : Nat) : ∀ n, fromBytesLE (toBytesLE w n) = n % 256 ^ w := by
  induction w with
  | zero => intro n; simp [toBytesLE, fromBytesLE, Nat.mod_one]
  | succ w ih =>
    intro n
    rw [toBytesLE, fromBytesLE, ih, pow_succ', Nat.mod_mul]

theorem fromBytesLE_toBytesLE_of_lt {w n : Nat} (h : n < 256 ^ w) :
    fromBytesLE (toBytesLE w n) = n := by
  rw [fromBytesLE_toBytesLE, Nat.mod_eq_of_lt h]

theorem length_encodeEntry (e : TElement) : (encodeEntry e).length = 16 := by
  simp [encodeEntry, length_toBytesLE]

theorem encodeEntries_nil : encodeEntries [] = [] := rfl

theorem encodeEntries_cons (e : TElement) (l : List TElement) :
    encodeEntries (e :: l) = encodeEntry e ++ encodeEntries l := by
  simp [encodeEntries]

theorem encodeEntries_append (l₁ l₂ : List TElement) :
    encodeEntries (l₁ ++ l₂) = encodeEntries l₁ ++ encodeEntries l₂ := by
  simp [encodeEntries]

theorem length_encodeEntries (l : List TElement) :
    (encodeEntries l).length = 16 * l.length := by
  induction l with
  | nil => rfl
  | cons e t ih =>
    rw [encodeEntries_cons, List.length_append, length_encodeEntry, ih, List.length_cons]
    ring

theorem writeAll_buffer (s : IndexFileW) : s.writeAll.buffer = [] := by
  unfold IndexFileW.writeAll
  by_cases h : s.buffer = [] <;> simp [h]

theorem writeAll_fileBytes (s : IndexFileW) : s.writeAll.fileBytes = s.content := by
  unfold IndexFileW.writeAll IndexFileW.content
  by_cases h : s.buffer = [] <;> simp [h, encodeEntries_nil]

theorem writeAll_content (s : IndexFileW) : s.writeAll.content = s.content := by
  unfold IndexFileW.content
  rw [writeAll_buffer, writeAll_fileBytes, encodeEntries_nil, List.append_nil]
  rfl

theorem add_content (s : IndexFileW) (k v : Nat) :
    (s.add k v).content = s.content ++ encodeEntry (k, v) := by
  unfold IndexFileW.add
  by_cases h : kFlushCount < s.buffer.length
  · simp only [h, if_pos, IndexFileW.content, encodeEntries_append, writeAll_buffer,
      writeAll_fileBytes, encodeEntries_nil]
    simp [IndexFileW.content, encodeEntries, List.append_assoc]
  · simp [h, IndexFileW.content, encodeEntries_append, encodeEntries, List.append_assoc]

theorem addAll_content (ops : List TElement) :
    ∀ s : IndexFileW, (addAll s ops).content = s.content ++ encodeEntries ops := by
  induction ops with
  | nil => intro s; simp [addAll, encodeEntries_nil]
  | cons e t ih =>
    intro s
    show (addAll (s.add e.1 e.2) t).content = _
    rw [ih, add_content, encodeEntries_cons, List.append_assoc]

theorem elementLe_iff (a b : TElement) : elementLe a b = true ↔ entLE a b := by
  unfold elementLe elementLt entLE
  by_cases h : b.1 = a.1
  · simp [h] <;> omega
  · have h2 : ¬ a.1 = b.1 := fun hh => h hh.symm
    simp [h, h2] <;> omega

theorem elementLe_trans (a b c : TElement) :
    elementLe a b → elementLe b c → elementLe a c := by
  simp only [elementLe_iff, entLE]
  omega

theorem elementLe_total (a b : TElement) : elementLe a b || elementLe b a := by
  have h : entLE a b ∨ entLE b a := by unfold entLE; omega
  simp only [Bool.or_eq_true, elementLe_iff]
  exact h

theorem entLE_key_le {a b : TElement} (h : entLE a b) : a.1 ≤ b.1 := by
  rcases h with h | ⟨h, _⟩ <;> omega

theorem decodeEntries_nil : decodeEntries [] = [] := by
  rw [decodeEntries]
  simp

theorem decodeEntries_encodeEntries (ops : List TElement)
    (hb : ∀ e ∈ ops, e.1 < 2 ^ 64 ∧ e.2 < 2 ^ 64) :
    decodeEntries (encodeEntries ops) = ops := by
  induction ops with
  | nil => exact decodeEntries_nil
  | cons e t ih =>
    have h256 : (256 : Nat) ^ 8 = 2 ^ 64 := by norm_num
    have hk : e.1 < 256 ^ 8 := by rw [h256]; exact (hb e (List.mem_cons_self e t)).1
    have hv : e.2 < 256 ^ 8 := by rw [h256]; exact (hb e (List.mem_cons_self e t)).2
    have hlen1 : (toBytesLE 8 e.1).length = 8 := length_toBytesLE 8 e.1
    have hlen2 : (toBytesLE 8 e.1 ++ toBytesLE 8 e.2).length = 16 := by
      simp [length_toBytesLE]
    have hne : encodeEntries (e :: t) ≠ [] := by
      rw [encodeEntries_cons]
      intro hcon
      have := congrArg List.length hcon
      simp [length_encodeEntry] at this
    rw [decodeEntries, dif_neg hne, encodeEntries_cons]
    unfold encodeEntry
    rw [List.append_assoc, List.take_left' hlen1, List.drop_left' hlen1,
      List.take_left' (length_toBytesLE 8 e.2), ← List.append_assoc,
      List.drop_left' hlen2, fromBytesLE_toBytesLE_of_lt hk, fromBytesLE_toBytesLE_of_lt hv,
      ih (fun x hx => hb x (List.mem_cons_of_mem e hx))]

theorem readAll_encodeEntries (ops : List TElement)
    (hb : ∀ e ∈ ops, e.1 < 2 ^ 64 ∧ e.2 < 2 ^ 64) :
    readAll (encodeEntries ops) = some (ops.mergeSort elementLe) := by
  unfold readAll
  rcases ops with _ | ⟨e, t⟩
  · simp [encodeEntries_nil, List.mergeSort]
  · have hlen : (encodeEntries (e :: t)).length = 16 * (e :: t).length :=
      length_encodeEntries _
    have hpos : (encodeEntries (e :: t)).length ≠ 0 := by
      rw [hlen]; simp
    rw [if_neg hpos, if_neg (by rw [hlen]; omega), decodeEntries_encodeEntries _ hb]

/-- The bytes the index pipeline puts on disk are exactly the encoded ops. -/
theorem indexPipeline_eq (ops : List TElement)
    (hb : ∀ e ∈ ops, e.1 < 2 ^ 64 ∧ e.2 < 2 ^ 64) :
    indexPipeline ops = some (ops.mergeSort elementLe) := by
  unfold indexPipeline
  rw [writeAll_fileBytes, addAll_content]
  simpa [IndexFileW.init, IndexFileW.content, encodeEntries_nil] using
    readAll_encodeEntries ops hb

theorem sorted_mergeSort_entLE (ops : List TElement) :
    (ops.mergeSort elementLe).Pairwise entLE := by
  have h := List.sorted_mergeSort elementLe_trans elementLe_total ops
  exact h.imp (fun hab => (elementLe_iff _ _).mp hab)

theorem getValueByKey_sorted (k : Nat) :
    ∀ es : List TElement, es.Pairwise entLE →
      getValueByKey es k = ((es.filter (fun e => decide (e.1 = k))).map (fun e => e.2)).head? := by
  intro es
  induction es with
  | nil => intro _; rfl
  | cons e tl ih =>
    intro h
    rcases List.pairwise_cons.mp h with ⟨h1, h2⟩
    rcases Nat.lt_trichotomy e.1 k with hlt | heq | hgt
    · unfold getValueByKey
      rw [List.find?_cons_of_neg _ (by simp [hlt]), List.filter_cons_of_neg (by simp; omega)]
      exact ih h2
    · unfold getValueByKey
      rw [List.find?_cons_of_pos _ (by simp [heq]), List.filter_cons_of_pos (by simp [heq])]
      simp [heq]
    · have hfil : (e :: tl).filter (fun x => decide (x.1 = k)) = [] := by
        rw [List.filter_eq_nil_iff]
        intro a ha
        rcases List.mem_cons.mp ha with rfl | hatl
        · simp; omega
        · have := entLE_key_le (h1 a hatl)
          simp; omega
      unfold getValueByKey
      rw [List.find?_cons_of_pos _ (by simp; omega), hfil]
      have : ¬ e.1 = k := by omega
      simp [this]

theorem equalRange_sorted (k : Nat) :
    ∀ es : List TElement, es.Pairwise entLE →
      equalRangeByKey es k = es.filter (fun e => decide (e.1 = k)) := by
  intro es
  induction es with
  | nil => intro _; rfl
  | cons e tl ih =>
    intro h
    rcases List.pairwise_cons.mp h with ⟨h1, h2⟩
    rcases Nat.lt_trichotomy e.1 k with hlt | heq | hgt
    · unfold equalRangeByKey
      rw [List.dropWhile_cons_of_pos (by simp [hlt]), List.filter_cons_of_neg (by simp; omega)]
      exact ih h2
    · have hdrop : tl.dropWhile (fun x : TElement => decide (x.1 < k)) = tl := by
        cases tl with
        | nil => rfl
        | cons x tl2 =>
          have hx : k ≤ x.1 := by
            have := entLE_key_le (h1 x (List.mem_cons_self x tl2))
            omega
          rw [List.dropWhile_cons_of_neg (by simp; omega)]
      unfold equalRangeByKey
      rw [List.dropWhile_cons_of_neg (by simp [heq]),
        List.takeWhile_cons_of_pos (by simp [heq]), List.filter_cons_of_pos (by simp [heq])]
      have htl := ih h2
      unfold equalRangeByKey at htl
      rw [hdrop] at htl
      rw [htl]
    · have hfil : (e :: tl).filter (fun x => decide (x.1 = k)) = [] := by
        rw [List.filter_eq_nil_iff]
        intro a ha
        rcases List.mem_cons.mp ha with rfl | hatl
        · simp; omega
        · have := entLE_key_le (h1 a hatl)
          simp; omega
      unfold equalRangeByKey
      rw [List.dropWhile_cons_of_neg (by simp; omega),
        List.takeWhile_cons_of_neg (by simp [hgt]), hfil]

theorem natLe_trans (a b c : Nat) : natLe a b → natLe b c → natLe a c := by
  unfold natLe
  intro h1 h2
  simp at *
  omega

theorem natLe_total (a b : Nat) : natLe a b || natLe b a := by
  unfold natLe
  simp [Bool.or_eq_true]
  omega

theorem pairwise_le_mergeSort_natLe (l : List Nat) :
    (l.mergeSort natLe).Pairwise (· ≤ ·) := by
  have h := List.sorted_mergeSort natLe_trans natLe_total l
  exact h.imp (fun hab => by simpa [natLe] using hab)

/-- On the sorted element list, the values at key k in list order are the
ascending sort of the values added at key k. -/
theorem filteredValues_eq_mergeSort (ops : List TElement) (k : Nat) :
    ((ops.mergeSort elementLe).filter (fun e => decide (e.1 = k))).map (fun e => e.2)
      = (matchingValues ops k).mergeSort natLe := by
  have hperm1 : List.Perm (((ops.mergeSort elementLe).filter
        (fun e => decide (e.1 = k))).map (fun e => e.2)) (matchingValues ops k) :=
    ((List.mergeSort_perm ops elementLe).filter (fun e => decide (e.1 = k))).map (fun e => e.2)
  have hperm2 : List.Perm ((matchingValues ops k).mergeSort natLe) (matchingValues ops k) :=
    List.mergeSort_perm _ _
  have hs1 : (((ops.mergeSort elementLe).filter (fun e => decide (e.1 = k))).map
      (fun e => e.2)).Pairwise (· ≤ ·) := by
    rw [List.pairwise_map]
    have hf : ((ops.mergeSort elementLe).filter (fun e => decide (e.1 = k))).Pairwise entLE :=
      (sorted_mergeSort_entLE ops).filter _
    refine hf.imp_of_mem ?_
    intro a b ha hb hab
    have hak : a.1 = k := by simpa using List.of_mem_filter ha
    have hbk : b.1 = k := by simpa using List.of_mem_filter hb
    rcases hab with h | ⟨_, h⟩ <;> omega
  exact List.eq_of_perm_of_sorted (hperm1.trans hperm2.symm) hs1
    (pairwise_le_mergeSort_natLe _)

theorem visitValues_eq_visitUntil (toDo : Nat → Bool) :
    ∀ es : List TElement, visitValues toDo es = visitUntil toDo (es.map (fun e => e.2)) := by
  intro es
  induction es with
  | nil => rfl
  | cons e tl ih =>
    unfold visitValues visitUntil
    rw [List.map_cons]
    by_cases h : toDo e.2 <;> simp [h, ih]

/-- C1: for every sequence of Add(k, v) calls followed by WriteAll, reopen and
ReadAll, GetValueByKey(k) returns the smallest added value among the entries
whose key equals k and is absent when there is none, and ForEachByKey(k)
visits exactly the matching values in ascending value order, stopping as soon
as the visitor returns true (that value is still visited, as the loop tests
toDo after the call). -/
theorem c1_index_roundtrip (ops : List TElement) (k : Nat)
    (hb : ∀ e ∈ ops, e.1 < 2 ^ 64 ∧ e.2 < 2 ^ 64) :
    ∃ es, indexPipeline ops = some es ∧
      (getValueByKey es k = none ↔ matchingValues ops k = []) ∧
      (∀ v, getValueByKey es k = some v →
        v ∈ matchingValues ops k ∧ ∀ w ∈ matchingValues ops k, v ≤ w) ∧
      (∀ toDo, forEachByKey es k toDo
        = visitUntil toDo ((matchingValues ops k).mergeSort natLe)) := by
  refine ⟨ops.mergeSort elementLe, indexPipeline_eq ops hb, ?_, ?_, ?_⟩
  · rw [getValueByKey_sorted k _ (sorted_mergeSort_entLE ops), filteredValues_eq_mergeSort]
    rw [List.head?_eq_none_iff]
    constructor
    · intro h
      have hp := List.mergeSort_perm (matchingValues ops k) natLe
      rw [h] at hp
      exact hp.symm.eq_nil
    · intro h
      rw [h]
      simp [List.mergeSort]
  · intro v hv
    rw [getValueByKey_sorted k _ (sorted_mergeSort_entLE ops), filteredValues_eq_mergeSort] at hv
    rcases List.head?_eq_some_iff.mp hv with ⟨tl, htl⟩
    have hperm : List.Perm ((matchingValues ops k).mergeSort natLe) (matchingValues ops k) :=
      List.mergeSort_perm _ _
    constructor
    · exact hperm.mem_iff.mp (htl ▸ List.mem_cons_self v tl)
    · intro w hw
      have hw2 : w ∈ v :: tl := htl ▸ hperm.mem_iff.mpr hw
      have hp : (v :: tl).Pairwise (· ≤ · : Nat → Nat → Prop) :=
        htl ▸ pairwise_le_mergeSort_natLe (matchingValues ops k)
      rcases List.mem_cons.mp hw2 with rfl | hwtl
      · exact le_refl w
      · exact (List.pairwise_cons.mp hp).1 w hwtl
  · intro toDo
    unfold forEachByKey
    rw [equalRange_sorted k _ (sorted_mergeSort_entLE ops), visitValues_eq_visitUntil,
      filteredValues_eq_mergeSort]

/-- Witness for C1 at the S1 scenario: add (10, 100), (20, 200), (10, 50). -/
theorem c1_index_roundtrip_witness :
    (∀ e ∈ ([(10, 100), (20, 200), (10, 50)] : List TElement), e.1 < 2 ^ 64 ∧ e.2 < 2 ^ 64) ∧
    (∃ es, indexPipeline [(10, 100), (20, 200), (10, 50)] = some es ∧
      (getValueByKey es 10 = none ↔ matchingValues [(10, 100), (20, 200), (10, 50)] 10 = []) ∧
      (∀ v, getValueByKey es 10 = some v →
        v ∈ matchingValues [(10, 100), (20, 200), (10, 50)] 10 ∧
        ∀ w ∈ matchingValues [(10, 100), (20, 200), (10, 50)] 10, v ≤ w) ∧
      (∀ toDo, forEachByKey es 10 toDo
        = visitUntil toDo ((matchingValues [(10, 100), (20, 200), (10, 50)] 10).mergeSort natLe))) :=
  ⟨by decide, c1_index_roundtrip [(10, 100), (20, 200), (10, 50)] 10 (by decide)⟩

/-- C10: WriteAll flushes the buffered elements and clears the in-memory
buffer, so a second consecutive WriteAll hits the empty-buffer early return
and leaves the index file bytes unchanged; WriteAll with an empty buffer is
always a no-op. -/
theorem c10_writeAll_idempotent (s : IndexFileW) :
    s.writeAll.buffer = [] ∧
    s.writeAll.fileBytes = s.fileBytes ++ encodeEntries s.buffer ∧
    s.writeAll.writeAll = s.writeAll ∧
    (IndexFileW.mk [] s.fileBytes).writeAll = IndexFileW.mk [] s.fileBytes := by
  refine ⟨writeAll_buffer s, ?_, ?_, ?_⟩
  · rw [writeAll_fileBytes]
    rfl
  · by_cases h : s.buffer = [] <;> simp [IndexFileW.writeAll, h]
  · simp [IndexFileW.writeAll]

/-- C5: ReadAll fails fatally with the "Damaged file." check exactly when the
index file byte length is not a whole multiple of sizeof(IndexEntry) = 16 —
for instance on the 15-byte truncation of a valid one-entry file; when the
length is a multiple of 16 there is no corruption abort and the entire file
is decoded and sorted with ElementComparator. -/
theorem c5_readAll_damaged (bs : List Nat) :
    readAll bs = (if bs.length % 16 = 0
      then some ((decodeEntries bs).mergeSort elementLe) else none) ∧
    readAll ((encodeEntries [(1, 2)]).take 15) = none := by
  constructor
  · unfold readAll
    by_cases h0 : bs.length = 0
    · have h16 : bs.length % 16 = 0 := by omega
      have hnil : bs = [] := List.length_eq_zero.mp h0
      simp [h0, h16, hnil, decodeEntries_nil, List.mergeSort]
    · by_cases h16 : bs.length % 16 = 0 <;> simp [h0, h16]
  · have hlen : ((encodeEntries [(1, 2)]).take 15).length = 15 := by
      rw [List.length_take, length_encodeEntries]
      simp
    unfold readAll
    rw [hlen]
    norm_num

theorem length_encRecord (p : List Nat) :
    (encRecord p).length = 4 + min (p.length % 2 ^ 32) p.length := by
  simp [encRecord, length_toBytesLE, List.length_take]

theorem length_encRecord_of_lt {p : List Nat} (h : p.length < 2 ^ 32) :
    (encRecord p).length = 4 + p.length := by
  rw [length_encRecord, Nat.mod_eq_of_lt h, min_self]

theorem encRecord_of_lt {p : List Nat} (h : p.length < 2 ^ 32) :
    encRecord p = toBytesLE 4 p.length ++ p := by
  rw [encRecord, Nat.mod_eq_of_lt h, List.take_length]

theorem encodeRecords_cons (w : Nat × List Nat) (ws : List (Nat × List Nat)) :
    encodeRecords (w :: ws) = encRecord w.2 ++ encodeRecords ws := by
  simp [encodeRecords]

theorem cacheWritten_spec (ws : List (Nat × List Nat)) : ∀ s : CacheW,
    (ws.foldl (fun t w => t.write w.1 w.2) s).storageBytes
        = s.storageBytes ++ encodeRecords ws ∧
    (ws.foldl (fun t w => t.write w.1 w.2) s).offsets
        = addAll s.offsets (cacheOps s.storageBytes.length ws) := by
  induction ws with
  | nil => intro s; simp [encodeRecords, addAll, cacheOps]
  | cons w ws ih =>
    intro s
    rcases ih (s.write w.1 w.2) with ⟨h1, h2⟩
    constructor
    · rw [List.foldl_cons, h1]
      show s.storageBytes ++ encRecord w.2 ++ encodeRecords ws = _
      rw [encodeRecords_cons, List.append_assoc]
    · rw [List.foldl_cons, h2]
      show addAll (s.offsets.add w.1 s.storageBytes.length) _ = _
      rw [cacheOps]
      show _ = addAll s.offsets ((w.1, s.storageBytes.length) :: _)
      unfold addAll
      rw [List.foldl_cons]
      congr 1
      show cacheOps (s.storageBytes ++ encRecord w.2).length ws = _
      rw [List.length_append]

theorem cacheFileBytes_eq (ws : List (Nat × List Nat)) :
    cacheFileBytes ws = encodeRecords ws := by
  unfold cacheFileBytes cacheWritten
  rw [(cacheWritten_spec ws CacheW.init).1]
  rfl

theorem cacheOffsetsBytes_eq (ws : List (Nat × List Nat)) :
    cacheOffsetsBytes ws = encodeEntries (cacheOps 0 ws) := by
  unfold cacheOffsetsBytes cacheWritten
  rw [writeAll_fileBytes, (cacheWritten_spec ws CacheW.init).2]
  show (addAll IndexFileW.init (cacheOps 0 ws)).content = _
  rw [addAll_content]
  rfl

/-- Every op of a write sequence carries a written id as key and an in-range
position as value; positions stay below the end of the payload file. -/
theorem cacheOps_mem (ws : List (Nat × List Nat)) : ∀ b, ∀ e ∈ cacheOps b ws,
    (∃ w ∈ ws, e.1 = w.1) ∧ b ≤ e.2 ∧ e.2 < b + (encodeRecords ws).length := by
  induction ws with
  | nil => intro b e he; simp [cacheOps] at he
  | cons w ws ih =>
    intro b e he
    have hw4 : 4 ≤ (encRecord w.2).length := by
      rw [length_encRecord]; omega
    rcases List.mem_cons.mp he with rfl | he2
    · exact ⟨⟨w, List.mem_cons_self w ws, rfl⟩, le_refl b, by
        rw [encodeRecords_cons, List.length_append]; omega⟩
    · rcases ih (b + (encRecord w.2).length) e he2 with ⟨⟨w2, hw2, hkey⟩, hlo, hhi⟩
      refine ⟨⟨w2, List.mem_cons_of_mem w hw2, hkey⟩, by omega, ?_⟩
      rw [encodeRecords_cons, List.length_append]
      omega

theorem matchingValues_nil (k : Nat) : matchingValues [] k = [] := rfl

theorem matchingValues_cons (e : TElement) (l : List TElement) (k : Nat) :
    matchingValues (e :: l) k
      = if e.1 = k then e.2 :: matchingValues l k else matchingValues l k := by
  unfold matchingValues
  by_cases h : e.1 = k
  · rw [List.filter_cons_of_pos (by simp [h]), List.map_cons, if_pos h]
  · rw [List.filter_cons_of_neg (by simp [h]), if_neg h]

/-- Payload-file positions recorded for one id are strictly increasing in
write order (each record occupies at least its 4-byte size prefix). -/
theorem matchingValues_cacheOps_lt (ws : List (Nat × List Nat)) : ∀ b id,
    (matchingValues (cacheOps b ws) id).Pairwise (· < ·) := by
  induction ws with
  | nil => intro b id; simp [cacheOps, matchingValues_nil]
  | cons w ws ih =>
    intro b id
    rw [cacheOps, matchingValues_cons]
    have hw4 : 4 ≤ (encRecord w.2).length := by
      rw [length_encRecord]; omega
    by_cases h : w.1 = id
    · rw [if_pos h]
      rw [List.pairwise_cons]
      refine ⟨?_, ih _ id⟩
      intro v hv
      rcases List.mem_map.mp hv with ⟨e, he, rfl⟩
      have := (cacheOps_mem ws (b + (encRecord w.2).length) e (List.mem_of_mem_filter he)).2.1
      omega
    · rw [if_neg h]
      exact ih _ id

theorem matchingValues_cacheOps_head (ws : List (Nat × List Nat)) : ∀ b id,
    (matchingValues (cacheOps b ws) id).head?
      = (firstWrite b ws id).map (fun x => x.1) := by
  induction ws with
  | nil => intro b id; rfl
  | cons w ws ih =>
    intro b id
    rw [cacheOps, matchingValues_cons, firstWrite]
    by_cases h : w.1 = id
    · simp [h]
    · rw [if_neg h, if_neg h]
      exact ih _ id

theorem mergeSort_natLe_of_lt {l : List Nat} (h : l.Pairwise (· < ·)) :
    l.mergeSort natLe = l :=
  List.mergeSort_of_sorted (h.imp (fun hab => by simp [natLe]; omega))

theorem firstWrite_decomp (ws : List (Nat × List Nat)) : ∀ b id pos p,
    firstWrite b ws id = some (pos, p) →
    (id, p) ∈ ws ∧
    ∃ pre suf, encodeRecords ws = pre ++ (encRecord p ++ suf) ∧ b + pre.length = pos := by
  induction ws with
  | nil => intro b id pos p h; simp [firstWrite] at h
  | cons w ws ih =>
    intro b id pos p h
    rw [firstWrite] at h
    by_cases hw : w.1 = id
    · rw [if_pos hw] at h
      have h1 : b = pos ∧ w.2 = p := by
        have := Option.some.inj h
        exact ⟨congrArg Prod.fst this, congrArg Prod.snd this⟩
      rcases h1 with ⟨rfl, rfl⟩
      refine ⟨?_, [], encodeRecords ws, ?_, ?_⟩
      · have : (id, w.2) = w := by
          rcases w with ⟨wid, wp⟩
          simp at hw
          rw [hw]
        rw [this]
        exact List.mem_cons_self w ws
      · rw [encodeRecords_cons, List.nil_append]
      · simp
    · rw [if_neg hw] at h
      rcases ih _ _ _ _ h with ⟨hmem, pre, suf, henc, hpos⟩
      refine ⟨List.mem_cons_of_mem w hmem, encRecord w.2 ++ pre, suf, ?_, ?_⟩
      · rw [encodeRecords_cons, henc, List.append_assoc]
      · rw [List.length_append]
        omega

theorem firstWrite_map_snd (ws : List (Nat × List Nat)) : ∀ b id,
    (firstWrite b ws id).map (fun x => x.2)
      = (ws.find? (fun w => decide (w.1 = id))).map (fun w => w.2) := by
  induction ws with
  | nil => intro b id; rfl
  | cons w ws ih =>
    intro b id
    rw [firstWrite]
    by_cases h : w.1 = id
    · rw [if_pos h, List.find?_cons_of_pos _ (by simp [h])]
      rfl
    · rw [if_neg h, List.find?_cons_of_neg _ (by simp [h])]
      exact ih _ id

/-- Master read lemma: after any write sequence, SaveOffsets, reopen and
LoadOffsets, a non-preload Read(id) returns exactly the payload of the first
Write with that id (none when the id was never written): the index lookup
yields the smallest recorded offset for the id, which is the offset of the
earliest write. -/
theorem cache_read_spec (ws : List (Nat × List Nat)) (id : Nat)
    (hid : ∀ w ∈ ws, w.1 < 2 ^ 64)
    (hlen : ∀ w ∈ ws, w.2.length < 2 ^ 32)
    (htot : (encodeRecords ws).length < 2 ^ 64) :
    ∃ es, readAll (cacheOffsetsBytes ws) = some es ∧
      readNoPreload es (cacheFileBytes ws) id
        = (ws.find? (fun w => decide (w.1 = id))).map (fun w => w.2) := by
  have hb : ∀ e ∈ cacheOps 0 ws, e.1 < 2 ^ 64 ∧ e.2 < 2 ^ 64 := by
    intro e he
    rcases cacheOps_mem ws 0 e he with ⟨⟨w, hw, hkey⟩, _, hhi⟩
    exact ⟨hkey ▸ hid w hw, by omega⟩
  refine ⟨(cacheOps 0 ws).mergeSort elementLe, ?_, ?_⟩
  · rw [cacheOffsetsBytes_eq]
    exact readAll_encodeEntries _ hb
  · have hget : getValueByKey ((cacheOps 0 ws).mergeSort elementLe) id
        = (firstWrite 0 ws id).map (fun x => x.1) := by
      rw [getValueByKey_sorted id _ (sorted_mergeSort_entLE _), filteredValues_eq_mergeSort,
        mergeSort_natLe_of_lt (matchingValues_cacheOps_lt ws 0 id),
        matchingValues_cacheOps_head ws 0 id]
    unfold readNoPreload
    rw [hget, ← firstWrite_map_snd ws 0 id]
    cases hfw : firstWrite 0 ws id with
    | none => rfl
    | some x =>
      rcases x with ⟨pos, p⟩
      rcases firstWrite_decomp ws 0 id pos p hfw with ⟨hmem, pre, suf, henc, hpos⟩
      have hplen : p.length < 2 ^ 32 := hlen (id, p) hmem
      have hpos2 : pos = pre.length := by omega
      have hstorage : cacheFileBytes ws
          = (pre ++ toBytesLE 4 p.length) ++ (p ++ suf) := by
        rw [cacheFileBytes_eq, henc, encRecord_of_lt hplen]
        simp [List.append_assoc]
      have hsize : ((cacheFileBytes ws).drop pos).take 4 = toBytesLE 4 p.length := by
        rw [hstorage, hpos2, List.append_assoc pre, List.drop_left' rfl,
          ← List.append_assoc (toBytesLE 4 p.length)]
        exact List.take_left' (length_toBytesLE 4 p.length)
      have hdata : (cacheFileBytes ws).drop (pos + 4) = p ++ suf := by
        rw [hstorage]
        refine List.drop_left' ?_
        rw [List.length_append, length_toBytesLE]
        omega
      have hvs : fromBytesLE (((cacheFileBytes ws).drop pos).take 4) = p.length := by
        rw [hsize]
        refine fromBytesLE_toBytesLE_of_lt ?_
        have : (256 : Nat) ^ 4 = 2 ^ 32 := by norm_num
        omega
      simp only [Option.map_some]
      show some ((((cacheFileBytes ws).drop (pos + 4)).take
        (fromBytesLE (((cacheFileBytes ws).drop pos).take 4))).take
        (fromBytesLE (((cacheFileBytes ws).drop pos).take 4))) = some p
      rw [hvs, hdata, List.take_left' rfl, List.take_length]

theorem find?_nodup_keys (ws : List (Nat × List Nat)) (id : Nat) (p : List Nat)
    (hnodup : (ws.map (fun w => w.1)).Nodup) (hmem : (id, p) ∈ ws) :
    ws.find? (fun w => decide (w.1 = id)) = some (id, p) := by
  induction ws with
  | nil => simp at hmem
  | cons w ws ih =>
    rw [List.map_cons] at hnodup
    rcases List.nodup_cons.mp hnodup with ⟨hnotin, hnd⟩
    rcases List.mem_cons.mp hmem with heq | hmem2
    · rw [← heq]
      exact List.find?_cons_of_pos _ (by simp)
    · by_cases hw : w.1 = id
      · exfalso
        have hin : id ∈ ws.map (fun w => w.1) := List.mem_map.mpr ⟨(id, p), hmem2, rfl⟩
        rw [hw] at hnotin
        exact hnotin hin
      · rw [List.find?_cons_of_neg _ (by simp [hw])]
        exact ih hnd hmem2

/-- C2: for every sequence of Write(id, payload) calls with pairwise distinct
ids, after SaveOffsets, reopening the same base path without preload and
LoadOffsets, Read(id) succeeds for every written id and reconstructs its
payload byte-for-byte. -/
theorem c2_payload_roundtrip (ws : List (Nat × List Nat)) (id : Nat) (p : List Nat)
    (hnodup : (ws.map (fun w => w.1)).Nodup)
    (hmem : (id, p) ∈ ws)
    (hid : ∀ w ∈ ws, w.1 < 2 ^ 64)
    (hlen : ∀ w ∈ ws, w.2.length < 2 ^ 32)
    (htot : (encodeRecords ws).length < 2 ^ 64) :
    ∃ es, readAll (cacheOffsetsBytes ws) = some es ∧
      readNoPreload es (cacheFileBytes ws) id = some p := by
  rcases cache_read_spec ws id hid hlen htot with ⟨es, h1, h2⟩
  refine ⟨es, h1, ?_⟩
  rw [h2, find?_nodup_keys ws id p hnodup hmem]
  rfl

/-- Witness for C2 at the S2 ids 1, 1000000, 42 with small byte payloads. -/
theorem c2_payload_roundtrip_witness :
    (([(1, [97]), (1000000, [98]), (42, [99, 100])] :
        List (Nat × List Nat)).map (fun w => w.1)).Nodup ∧
    ((42 : Nat), ([99, 100] : List Nat)) ∈
      ([(1, [97]), (1000000, [98]), (42, [99, 100])] : List (Nat × List Nat)) ∧
    (∃ es, readAll (cacheOffsetsBytes [(1, [97]), (1000000, [98]), (42, [99, 100])])
        = some es ∧
      readNoPreload es (cacheFileBytes [(1, [97]), (1000000, [98]), (42, [99, 100])]) 42
        = some [99, 100]) :=
  ⟨by decide, by decide,
    c2_payload_roundtrip [(1, [97]), (1000000, [98]), (42, [99, 100])] 42 [99, 100]
      (by decide) (by decide) (by decide) (by decide) (by decide)⟩

/-- C3: when Write(id, A) precedes Write(id, B) on the same cache, after
flush, reopen in read mode and LoadOffsets, Read(id) returns A: the index
lookup selects the smallest recorded offset for the id, which is the offset
of the earlier write. -/
theorem c3_duplicate_ids (ws1 ws2 : List (Nat × List Nat)) (id : Nat) (A B : List Nat)
    (hfresh : id ∉ ws1.map (fun w => w.1))
    (hB : (id, B) ∈ ws2)
    (hid : ∀ w ∈ ws1 ++ (id, A) :: ws2, w.1 < 2 ^ 64)
    (hlen : ∀ w ∈ ws1 ++ (id, A) :: ws2, w.2.length < 2 ^ 32)
    (htot : (encodeRecords (ws1 ++ (id, A) :: ws2)).length < 2 ^ 64) :
    ∃ es, readAll (cacheOffsetsBytes (ws1 ++ (id, A) :: ws2)) = some es ∧
      readNoPreload es (cacheFileBytes (ws1 ++ (id, A) :: ws2)) id = some A := by
  rcases cache_read_spec (ws1 ++ (id, A) :: ws2) id hid hlen htot with ⟨es, h1, h2⟩
  refine ⟨es, h1, ?_⟩
  rw [h2, List.find?_append]
  have hws1 : ws1.find? (fun w => decide (w.1 = id)) = none := by
    rw [List.find?_eq_none]
    intro w hw
    simp only [decide_eq_true_eq]
    intro hcon
    exact hfresh (List.mem_map.mpr ⟨w, hw, hcon⟩)
  rw [hws1, Option.none_or, List.find?_cons_of_pos _ (by simp)]
  rfl

/-- Witness for C3: ids 5 then 7 with payload A, then 7 again with B. -/
theorem c3_duplicate_ids_witness :
    ((7 : Nat) ∉ ([(5, [1])] : List (Nat × List Nat)).map (fun w => w.1)) ∧
    ((7 : Nat), ([3] : List Nat)) ∈ ([(7, [3])] : List (Nat × List Nat)) ∧
    (∃ es, readAll (cacheOffsetsBytes ([(5, [1])] ++ (7, [1, 2]) :: [(7, [3])]))
        = some es ∧
      readNoPreload es (cacheFileBytes ([(5, [1])] ++ (7, [1, 2]) :: [(7, [3])])) 7
        = some [1, 2]) :=
  ⟨by decide, by decide,
    c3_duplicate_ids [(5, [1])] [(7, [3])] 7 [1, 2] [3]
      (by decide) (by decide) (by decide) (by decide) (by decide)⟩

/-- C4: over the same offset table and payload file, Read with preload
returns the same success flag and, on success, the same payload bytes as
Read without preload — in particular over the files of any written cache. -/
theorem c4_preload_equivalence (es : List TElement) (storage : List Nat) (id : Nat) :
    readPreload es storage id = readNoPreload es storage id := by
  unfold readPreload readNoPreload
  cases getValueByKey es id with
  | none => rfl
  | some pos => simp [List.take_take]

theorem toInt32_eq_self_iff (n : Int) : toInt32 n = n ↔ fitsInt32 n := by
  unfold toInt32 fitsInt32
  omega

theorem ratTrunc_intCast (n : ℤ) : ratTrunc ((n : ℚ)) = n := by
  rw [ratTrunc, Rat.num_intCast, Rat.den_intCast]
  exact Int.tdiv_one n

theorem ratTrunc_mul_kValueOrder (n : ℤ) :
    ratTrunc ((n : ℚ) * kValueOrder) = n * 10000000 := by
  have h : (n : ℚ) * kValueOrder = ((n * 10000000 : ℤ) : ℚ) := by
    unfold kValueOrder
    push_cast
    ring
  rw [h, ratTrunc_intCast]

/-- C6: AddPoint on a write-mode dense point storage aborts fatally exactly
when trunc(lat * 1e7) or trunc(lng * 1e7) does not fit in int32, and
otherwise stores the scaled point (at an in-bounds slot for the RawMem
array) and bumps the processed counter; in particular
AddPoint(0, 300.0, 0.0) aborts fatally in both storages. -/
theorem c6_addPoint_overflow (s : RawFileW) (t : RawMemW) (id mid : Nat) (lat lng : ℚ)
    (hmid : mid < rawMemSize) :
    (rawFileAddPoint s id lat lng
      = if fitsInt32 (ratTrunc (lat * kValueOrder)) ∧ fitsInt32 (ratTrunc (lng * kValueOrder))
        then some ⟨Function.update s.file id
            ⟨ratTrunc (lat * kValueOrder), ratTrunc (lng * kValueOrder)⟩, s.processed + 1⟩
        else none) ∧
    (rawMemAddPoint t mid lat lng
      = if fitsInt32 (ratTrunc (lat * kValueOrder)) ∧ fitsInt32 (ratTrunc (lng * kValueOrder))
        then some ⟨Function.update t.data mid
            ⟨ratTrunc (lat * kValueOrder), ratTrunc (lng * kValueOrder)⟩, t.processed + 1⟩
        else none) ∧
    rawFileAddPoint RawFileW.init 0 300 0 = none ∧
    rawMemAddPoint RawMemW.init 0 300 0 = none := by
  have h300 : ratTrunc ((300 : ℚ) * kValueOrder) = 3000000000 := by
    simpa using ratTrunc_mul_kValueOrder 300
  have h0 : ratTrunc ((0 : ℚ) * kValueOrder) = 0 := by
    simpa using ratTrunc_mul_kValueOrder 0
  refine ⟨?_, ?_, ?_, ?_⟩
  · simp only [rawFileAddPoint]
    by_cases h : fitsInt32 (ratTrunc (lat * kValueOrder)) ∧ fitsInt32 (ratTrunc (lng * kValueOrder))
    · rw [if_pos ⟨(toInt32_eq_self_iff _).mpr h.1, (toInt32_eq_self_iff _).mpr h.2⟩, if_pos h,
        (toInt32_eq_self_iff _).mpr h.1, (toInt32_eq_self_iff _).mpr h.2]
    · rw [if_neg (fun hc => h ⟨(toInt32_eq_self_iff _).mp hc.1, (toInt32_eq_self_iff _).mp hc.2⟩),
        if_neg h]
  · simp only [rawMemAddPoint]
    by_cases h : fitsInt32 (ratTrunc (lat * kValueOrder)) ∧ fitsInt32 (ratTrunc (lng * kValueOrder))
    · rw [if_pos ⟨(toInt32_eq_self_iff _).mpr h.1, (toInt32_eq_self_iff _).mpr h.2⟩, if_pos h,
        (toInt32_eq_self_iff _).mpr h.1, (toInt32_eq_self_iff _).mpr h.2]
    · rw [if_neg (fun hc => h ⟨(toInt32_eq_self_iff _).mp hc.1, (toInt32_eq_self_iff _).mp hc.2⟩),
        if_neg h]
  · simp only [rawFileAddPoint, h300, h0]
    rw [if_neg (by decide)]
  · simp only [rawMemAddPoint, h300, h0]
    rw [if_neg (by decide)]

/-- Witness for C6 at id 0, Moscow-like integer coordinates 55 and 37. -/
theorem c6_addPoint_overflow_witness :
    (0 : Nat) < rawMemSize ∧
    ((rawFileAddPoint RawFileW.init 0 55 37
      = if fitsInt32 (ratTrunc ((55 : ℚ) * kValueOrder))
            ∧ fitsInt32 (ratTrunc ((37 : ℚ) * kValueOrder))
        then some ⟨Function.update RawFileW.init.file 0
            ⟨ratTrunc ((55 : ℚ) * kValueOrder), ratTrunc ((37 : ℚ) * kValueOrder)⟩,
            RawFileW.init.processed + 1⟩
        else none) ∧
    (rawMemAddPoint RawMemW.init 0 55 37
      = if fitsInt32 (ratTrunc ((55 : ℚ) * kValueOrder))
            ∧ fitsInt32 (ratTrunc ((37 : ℚ) * kValueOrder))
        then some ⟨Function.update RawMemW.init.data 0
            ⟨ratTrunc ((55 : ℚ) * kValueOrder), ratTrunc ((37 : ℚ) * kValueOrder)⟩,
            RawMemW.init.processed + 1⟩
        else none) ∧
    rawFileAddPoint RawFileW.init 0 300 0 = none ∧
    rawMemAddPoint RawMemW.init 0 300 0 = none) :=
  ⟨by decide, c6_addPoint_overflow RawFileW.init RawMemW.init 0 0 55 37 (by decide)⟩

theorem rawFileAddPoint_file (s s2 : RawFileW) (id : Nat) (lat lng : ℚ)
    (h : rawFileAddPoint s id lat lng = some s2) :
    ∃ ll, s2.file = Function.update s.file id ll := by
  simp only [rawFileAddPoint] at h
  split at h
  · exact ⟨_, (congrArg RawFileW.file (Option.some.inj h)).symm⟩
  · cases h

theorem rawMemAddPoint_data (s s2 : RawMemW) (id : Nat) (lat lng : ℚ)
    (h : rawMemAddPoint s id lat lng = some s2) :
    ∃ ll, s2.data = Function.update s.data id ll := by
  simp only [rawMemAddPoint] at h
  split at h
  · exact ⟨_, (congrArg RawMemW.data (Option.some.inj h)).symm⟩
  · cases h

/-- Ids never passed to AddPoint keep their initial (zero) record. -/
theorem rawFileAddAll_unwritten (ws : List (Nat × ℚ × ℚ)) : ∀ s t id,
    rawFileAddAll s ws = some t → id ∉ ws.map (fun w => w.1) → t.file id = s.file id := by
  induction ws with
  | nil =>
    intro s t id h _
    rw [rawFileAddAll] at h
    rw [← Option.some.inj h]
  | cons w ws ih =>
    intro s t id h hmem
    rw [rawFileAddAll] at h
    rw [List.map_cons, List.mem_cons] at hmem
    push_neg at hmem
    cases hstep : rawFileAddPoint s w.1 w.2.1 w.2.2 with
    | none => rw [hstep] at h; cases h
    | some s2 =>
      rw [hstep] at h
      rcases rawFileAddPoint_file s s2 w.1 w.2.1 w.2.2 hstep with ⟨ll, hfile⟩
      rw [ih s2 t id h hmem.2, hfile, Function.update_noteq hmem.1]

theorem rawMemAddAll_unwritten (ws : List (Nat × ℚ × ℚ)) : ∀ s t id,
    rawMemAddAll s ws = some t → id ∉ ws.map (fun w => w.1) → t.data id = s.data id := by
  induction ws with
  | nil =>
    intro s t id h _
    rw [rawMemAddAll] at h
    rw [← Option.some.inj h]
  | cons w ws ih =>
    intro s t id h hmem
    rw [rawMemAddAll] at h
    rw [List.map_cons, List.mem_cons] at hmem
    push_neg at hmem
    cases hstep : rawMemAddPoint s w.1 w.2.1 w.2.2 with
    | none => rw [hstep] at h; cases h
    | some s2 =>
      rw [hstep] at h
      rcases rawMemAddPoint_data s s2 w.1 w.2.1 w.2.2 hstep with ⟨ll, hdata⟩
      rw [ih s2 t id h hmem.2, hdata, Function.update_noteq hmem.1]

theorem rawFileGetPoint_char (f : Nat → LatLon) (j : Nat) :
    rawFileGetPoint f j = if f j = zeroLL then none
      else some ((((f j).lat : ℚ)) / kValueOrder, (((f j).lon : ℚ)) / kValueOrder) := by
  simp only [rawFileGetPoint]
  by_cases h : f j = zeroLL
  · rw [if_pos h, if_neg]
    rw [h]
    simp [zeroLL]
  · rw [if_neg h, if_pos]
    by_contra hc
    push_neg at hc
    refine h ?_
    have hmk : f j = LatLon.mk (f j).lat (f j).lon := rfl
    rw [hmk, hc.1, hc.2]
    rfl

theorem rawMemGetPoint_char (d : Nat → LatLon) (j : Nat) :
    rawMemGetPoint d j = if d j = zeroLL then none
      else some ((((d j).lat : ℚ)) / kValueOrder, (((d j).lon : ℚ)) / kValueOrder) := by
  simp only [rawMemGetPoint]
  by_cases h : d j = zeroLL
  · rw [if_pos h, if_neg]
    rw [h]
    simp [zeroLL]
  · rw [if_neg h, if_pos]
    by_contra hc
    push_neg at hc
    refine h ?_
    have hmk : d j = LatLon.mk (d j).lat (d j).lon := rfl
    rw [hmk, hc.1, hc.2]
    rfl

/-- C8: GetPoint on a read-mode dense point storage returns false exactly
when the 8-byte record at the queried id is (0, 0) — which is the case for
every id that was never written — logging an error but never aborting;
otherwise it returns true with lat and lng equal to the stored int32 fields
divided by 1e7. -/
theorem c8_dense_getPoint (ws : List (Nat × ℚ × ℚ)) (t : RawFileW) (u : RawMemW) (id : Nat)
    (hf : rawFileAddAll RawFileW.init ws = some t)
    (hm : rawMemAddAll RawMemW.init ws = some u)
    (hid : id ∉ ws.map (fun w => w.1)) :
    t.file id = zeroLL ∧ u.data id = zeroLL ∧
    rawFileGetPoint t.file id = none ∧ rawMemGetPoint u.data id = none ∧
    (∀ (f : Nat → LatLon) (j : Nat),
      rawFileGetPoint f j = if f j = zeroLL then none
        else some ((((f j).lat : ℚ)) / kValueOrder, (((f j).lon : ℚ)) / kValueOrder)) ∧
    (∀ (d : Nat → LatLon) (j : Nat),
      rawMemGetPoint d j = if d j = zeroLL then none
        else some ((((d j).lat : ℚ)) / kValueOrder, (((d j).lon : ℚ)) / kValueOrder)) := by
  have h1 : t.file id = zeroLL := rawFileAddAll_unwritten ws RawFileW.init t id hf hid
  have h2 : u.data id = zeroLL := rawMemAddAll_unwritten ws RawMemW.init u id hm hid
  refine ⟨h1, h2, ?_, ?_, rawFileGetPoint_char, rawMemGetPoint_char⟩
  · rw [rawFileGetPoint_char, if_pos h1]
  · rw [rawMemGetPoint_char, if_pos h2]

/-- Witness for C8 with the empty write sequence and id 0. -/
theorem c8_dense_getPoint_witness :
    rawFileAddAll RawFileW.init [] = some RawFileW.init ∧
    rawMemAddAll RawMemW.init [] = some RawMemW.init ∧
    ((0 : Nat) ∉ ([] : List (Nat × ℚ × ℚ)).map (fun w => w.1)) ∧
    (RawFileW.init.file 0 = zeroLL ∧ RawMemW.init.data 0 = zeroLL ∧
    rawFileGetPoint RawFileW.init.file 0 = none ∧
    rawMemGetPoint RawMemW.init.data 0 = none ∧
    (∀ (f : Nat → LatLon) (j : Nat),
      rawFileGetPoint f j = if f j = zeroLL then none
        else some ((((f j).lat : ℚ)) / kValueOrder, (((f j).lon : ℚ)) / kValueOrder)) ∧
    (∀ (d : Nat → LatLon) (j : Nat),
      rawMemGetPoint d j = if d j = zeroLL then none
        else some ((((d j).lat : ℚ)) / kValueOrder, (((d j).lon : ℚ)) / kValueOrder))) :=
  ⟨rfl, rfl, by simp,
    c8_dense_getPoint [] RawFileW.init RawMemW.init 0 rfl rfl (by simp)⟩

theorem length_encodeLatLon (ll : LatLon) : (encodeLatLon ll).length = 8 := by
  simp [encodeLatLon, encodeInt32LE, length_toBytesLE]

/-- The DoneStorage blob always has exactly rawMemSize * 8 bytes. -/
theorem length_rawMemSnapshotBytes (d : Nat → LatLon) :
    (rawMemSnapshotBytes d).length = rawMemSize * 8 := by
  unfold rawMemSnapshotBytes
  rw [List.flatMap_def, List.length_flatten, List.map_map]
  have h : (List.length ∘ fun i => encodeLatLon (d i)) = fun _ => (8 : Nat) := by
    funext i
    exact length_encodeLatLon (d i)
  rw [h, List.map_const', List.sum_const_nat, List.length_range]

/-- C7 counterexample: the blob written at write-mode destruction has
(2^32 − 1) * 8 bytes — the vector holds (size_t)0xFFFFFFFF = 2^32 − 1
entries — not 2^32 * 8 bytes as claimed. -/
theorem c7_counterexample :
    (rawMemDoneStorage RawMemW.init).length ≠ 2 ^ 32 * 8 := by
  unfold rawMemDoneStorage
  rw [length_rawMemSnapshotBytes]
  unfold rawMemSize
  norm_num

/-- C7 amended: for a write-mode RawMemPointStorage, the point file written
at destruction is always a contiguous (2^32 − 1) * 8 byte blob — the
complete snapshot of the 0xFFFFFFFF-entry in-memory LatLon array —
regardless of how many AddPoint calls were made. -/
theorem c7_rawmem_blob (ws : List (Nat × ℚ × ℚ)) (s : RawMemW)
    (h : rawMemAddAll RawMemW.init ws = some s) :
    (rawMemDoneStorage s).length = (2 ^ 32 - 1) * 8 := by
  unfold rawMemDoneStorage
  rw [length_rawMemSnapshotBytes]
  unfold rawMemSize
  norm_num

/-- Witness for C7 amended with the empty AddPoint sequence. -/
theorem c7_rawmem_blob_witness :
    rawMemAddAll RawMemW.init [] = some RawMemW.init ∧
    (rawMemDoneStorage RawMemW.init).length = (2 ^ 32 - 1) * 8 :=
  ⟨rfl, c7_rawmem_blob [] RawMemW.init rfl⟩

theorem find?_emplace_ne (m : List (Nat × Int × Int)) (k : Nat) (v : Int × Int) (id : Nat)
    (h : k ≠ id) :
    (emplace m k v).find? (fun e => decide (e.1 = id))
      = m.find? (fun e => decide (e.1 = id)) := by
  unfold emplace
  split
  · rfl
  · rw [List.find?_append]
    have hs : ([(k, v)] : List (Nat × Int × Int)).find? (fun e => decide (e.1 = id)) = none := by
      simp [h]
    rw [hs, Option.or_none]

/-- Looking a key up after streaming records into the map via emplace finds
the key of the FIRST record with that id (later duplicates are ignored). -/
theorem find?_foldl_emplace (records : List LatLonPos) :
    ∀ (m : List (Nat × Int × Int)) (id : Nat),
    ((records.foldl (fun m r => emplace m r.pos (r.lat, r.lon)) m).find?
        (fun e => decide (e.1 = id)))
      = ((m.find? (fun e => decide (e.1 = id))).or
          ((records.find? (fun r => decide (r.pos = id))).map
            (fun r => (r.pos, r.lat, r.lon)))) := by
  induction records with
  | nil => intro m id; simp
  | cons r rs ih =>
    intro m id
    rw [List.foldl_cons, ih]
    by_cases hid : r.pos = id
    · subst hid
      rw [List.find?_cons_of_pos _ (by simp)]
      by_cases hm : (m.find? (fun e => decide (e.1 = r.pos))).isSome
      · rcases Option.isSome_iff_exists.mp hm with ⟨v, hv⟩
        have hemp : emplace m r.pos (r.lat, r.lon) = m := by
          unfold emplace
          rw [if_pos hm]
        rw [hemp, hv]
        rfl
      · have hmn : m.find? (fun e => decide (e.1 = r.pos)) = none :=
          Option.not_isSome_iff_eq_none.mp hm
        have hemp : emplace m r.pos (r.lat, r.lon) = m ++ [(r.pos, r.lat, r.lon)] := by
          unfold emplace
          rw [if_neg (by rw [hmn]; simp)]
        rw [hemp, List.find?_append, hmn, Option.none_or, Option.none_or,
          List.find?_cons_of_pos _ (by simp)]
        rfl
    · rw [List.find?_cons_of_neg _ (by simp [hid]), find?_emplace_ne m r.pos _ id hid]

/-- The .short file of a successful AddPoint sequence holds one LatLonPos
record per call, in call order, with the truncated scaled coordinates. -/
theorem mapFileAddAll_records (ws : List (Nat × ℚ × ℚ)) : ∀ s t,
    mapFileAddAll s ws = some t →
    t.fileRecords = s.fileRecords ++ ws.map (fun w =>
      LatLonPos.mk w.1 (ratTrunc (w.2.1 * kValueOrder)) (ratTrunc (w.2.2 * kValueOrder))) := by
  induction ws with
  | nil =>
    intro s t h
    rw [mapFileAddAll] at h
    rw [← Option.some.inj h]
    simp
  | cons w ws ih =>
    intro s t h
    rw [mapFileAddAll] at h
    cases hstep : mapFileAddPoint s w.1 w.2.1 w.2.2 with
    | none => rw [hstep] at h; cases h
    | some s2 =>
      rw [hstep] at h
      simp only [mapFileAddPoint] at hstep
      split at hstep
      · rename_i hcond
        have hs2 := Option.some.inj hstep
        rw [ih s2 t h, ← hs2]
        show s.fileRecords ++ [_] ++ _ = _
        rw [List.map_cons, List.append_assoc, List.singleton_append, hcond.1, hcond.2]
      · cases hstep

/-- C9: when AddPoint was called several times with the same id during the
write pass, a read-mode instance built from the .short file answers
GetPoint(id) with the coordinates of the earliest such call: the read-side
emplace keeps the first record per id and ignores later duplicates. -/
theorem c9_mapfile_first_wins (ws : List (Nat × ℚ × ℚ)) (t : MapFileW) (id : Nat)
    (h : mapFileAddAll MapFileW.init ws = some t) :
    mapFileGetPoint (mapFileInitRead t.fileRecords) id
      = (ws.find? (fun w => decide (w.1 = id))).map
          (fun w => (((ratTrunc (w.2.1 * kValueOrder) : ℚ)) / kValueOrder,
            ((ratTrunc (w.2.2 * kValueOrder) : ℚ)) / kValueOrder)) := by
  rw [mapFileAddAll_records ws MapFileW.init t h]
  show mapFileGetPoint (mapFileInitRead (([] : List LatLonPos) ++ _)) id = _
  rw [List.nil_append]
  unfold mapFileGetPoint mapFileInitRead
  rw [find?_foldl_emplace, List.find?_nil, Option.none_or, List.find?_map,
    Option.map_map, Option.map_map]
  rfl

/-- Witness for C9: id 7 written twice with different coordinates; GetPoint
answers with the first pair. -/
theorem c9_mapfile_first_wins_witness :
    mapFileGetPoint (mapFileInitRead (MapFileW.mk
        [⟨7, 10000000, 20000000⟩, ⟨7, 30000000, 40000000⟩] 2).fileRecords) 7
      = (([(7, 1, 2), (7, 3, 4)] : List (Nat × ℚ × ℚ)).find? (fun w => decide (w.1 = 7))).map
          (fun w => (((ratTrunc (w.2.1 * kValueOrder) : ℚ)) / kValueOrder,
            ((ratTrunc (w.2.2 * kValueOrder) : ℚ)) / kValueOrder)) := by
  refine c9_mapfile_first_wins [(7, 1, 2), (7, 3, 4)] _ 7 ?_
  have e1 : ratTrunc ((1 : ℚ) * kValueOrder) = 10000000 := by
    simpa using ratTrunc_mul_kValueOrder 1
  have e2 : ratTrunc ((2 : ℚ) * kValueOrder) = 20000000 := by
    simpa using ratTrunc_mul_kValueOrder 2
  have e3 : ratTrunc ((3 : ℚ) * kValueOrder) = 30000000 := by
    simpa using ratTrunc_mul_kValueOrder 3
  have e4 : ratTrunc ((4 : ℚ) * kValueOrder) = 40000000 := by
    simpa using ratTrunc_mul_kValueOrder 4
  have s1 : mapFileAddPoint MapFileW.init 7 1 2
      = some (MapFileW.mk [⟨7, 10000000, 20000000⟩] 1) := by
    simp only [mapFileAddPoint, e1, e2]
    rw [if_pos (by decide)]
    decide
  have s2 : mapFileAddPoint (MapFileW.mk [⟨7, 10000000, 20000000⟩] 1) 7 3 4
      = some (MapFileW.mk [⟨7, 10000000, 20000000⟩, ⟨7, 30000000, 40000000⟩] 2) := by
    simp only [mapFileAddPoint, e3, e4]
    rw [if_pos (by decide)]
    decide
  simp only [mapFileAddAll, s1, s2]

end cache
